import Mathlib

/-!
Verification of ft_sipping (src/ft_sipping/cli.py) against its
natural-language specification.

The development shallowly embeds the three core parts of the program:

* the GIF frame decoder `load_gif_frames` (compositing with disposal
  methods, using PIL's fixed-point alpha-mask paste semantics),
* the half-block rasterizer `frame_to_ansi` (height computation, the
  four-state pixel-pair classification, the escape-minimizing line
  state machine, modelled on token lists instead of raw strings),
* the animation controller of `main` (cooperative cancellation via a
  polled flag, per-cycle phases, committed log lines, statistics),
  plus the `do_ping` result-shape wrapper and the startup error paths.

External collaborators (PIL's Lanczos resampler, the `re` regex engine,
float parsing, the subprocess runner) are modelled as explicit function
parameters or environment values at their interface boundary.
-/

set_option autoImplicit false
set_option maxRecDepth 4000

/-- One RGBA pixel; channels are 8-bit values carried as `Nat`. -/
structure RGBA where
  r : Nat
  g : Nat
  b : Nat
  a : Nat
deriving DecidableEq

/-- A pixel grid with dimensions, standing for a PIL RGBA image. -/
structure Img where
  width : Nat
  height : Nat
  px : Nat → Nat → RGBA

def transparentPx : RGBA := ⟨0, 0, 0, 0⟩

/-- PIL's fixed-point `MULDIV255(a, b)`: rounded division of `a * b` by 255,
computed as `(t + t >> 8) >> 8` with `t = a * b + 128`. -/
def muldiv255 (x y : Nat) : Nat :=
  let t := x * y + 128
  (t + t / 256) / 256

/-- PIL's per-channel `BLEND`: mask `m` blends canvas channel `c` with
source channel `s`. -/
def blendCh (m c s : Nat) : Nat := muldiv255 c (255 - m) + muldiv255 s m

/-- One pixel of `canvas.paste(frame, mask=frame)` (cli.py line 43): the
source frame's alpha band is the mask, and every band of the canvas
(including alpha) is blended with the source. -/
def pasteMaskPx (c s : RGBA) : RGBA :=
  ⟨blendCh s.a c.r s.r, blendCh s.a c.g s.g, blendCh s.a c.b s.b, blendCh s.a c.a s.a⟩

/-- Whole-image alpha-masked paste; the canvas keeps its dimensions. -/
def pasteMask (canvas frame : Img) : Img :=
  ⟨canvas.width, canvas.height, fun x y => pasteMaskPx (canvas.px x y) (frame.px x y)⟩

/-- `Image.new("RGBA", size, (0, 0, 0, 0))` (cli.py lines 36 and 48). -/
def transparentCanvas (w h : Nat) : Img := ⟨w, h, fun _ _ => transparentPx⟩

/-- Loop body of `load_gif_frames` (cli.py lines 38-51): composite each
source frame onto the running canvas, snapshot it, then apply the frame's
disposal method (`2` restores the background, everything else keeps the
composited canvas). -/
def loadGo (w h : Nat) (canvas : Img) : List (Img × Nat) → List Img
  | [] => []
  | (f, d) :: rest =>
    let nc := pasteMask canvas f
    nc :: loadGo w h (if d = 2 then transparentCanvas w h else nc) rest

/-- `load_gif_frames` (cli.py lines 32-52), with the decoded source frames
(already converted to RGBA) and their disposal methods as input. -/
def load_gif_frames (w h : Nat) (inputs : List (Img × Nat)) : List Img :=
  loadGo w h (transparentCanvas w h) inputs

/-- The canvas state at the start of iteration `n` of the decoding loop,
starting from `canvas`. -/
def canvasGo (w h : Nat) (canvas : Img) : List (Img × Nat) → Nat → Img
  | _, 0 => canvas
  | [], _ + 1 => canvas
  | (f, d) :: rest, n + 1 =>
    canvasGo w h (if d = 2 then transparentCanvas w h else pasteMask canvas f) rest n

/-- The running canvas carried into source frame `n` of `load_gif_frames`. -/
def canvasBefore (w h : Nat) (inputs : List (Img × Nat)) (n : Nat) : Img :=
  canvasGo w h (transparentCanvas w h) inputs n

/-- All four channels of a pixel are valid 8-bit values. -/
def BoundedPx (p : RGBA) : Prop := p.r ≤ 255 ∧ p.g ≤ 255 ∧ p.b ≤ 255 ∧ p.a ≤ 255

instance : DecidablePred BoundedPx := fun p => by unfold BoundedPx; infer_instance

lemma muldiv255_y_zero (x : Nat) : muldiv255 x 0 = 0 := by
  simp [muldiv255]

lemma muldiv255_y_255 {x : Nat} (h : x ≤ 255) : muldiv255 x 255 = x := by
  have key : ∀ z : Fin 256, muldiv255 z.val 255 = z.val := by decide
  exact key ⟨x, by omega⟩

lemma muldiv255_255_y {y : Nat} (h : y ≤ 255) : muldiv255 255 y = y := by
  have key : ∀ z : Fin 256, muldiv255 255 z.val = z.val := by decide
  exact key ⟨y, by omega⟩

lemma muldiv255_mono_left {x x' : Nat} (y : Nat) (h : x ≤ x') :
    muldiv255 x y ≤ muldiv255 x' y := by
  unfold muldiv255
  have h1 : x * y + 128 ≤ x' * y + 128 := by
    have := Nat.mul_le_mul_right y h
    omega
  exact Nat.div_le_div_right (Nat.add_le_add h1 (Nat.div_le_div_right h1))

lemma blendCh_le_255 {m c s : Nat} (hm : m ≤ 255) (hc : c ≤ 255) (hs : s ≤ 255) :
    blendCh m c s ≤ 255 := by
  unfold blendCh
  have h1 : muldiv255 c (255 - m) ≤ muldiv255 255 (255 - m) := muldiv255_mono_left _ hc
  have h2 : muldiv255 s m ≤ muldiv255 255 m := muldiv255_mono_left _ hs
  have e1 : muldiv255 255 (255 - m) = 255 - m := muldiv255_255_y (by omega)
  have e2 : muldiv255 255 m = m := muldiv255_255_y hm
  omega

lemma blendCh_mask_zero {c : Nat} (s : Nat) (hc : c ≤ 255) : blendCh 0 c s = c := by
  unfold blendCh
  norm_num [muldiv255_y_zero, muldiv255_y_255 hc]

lemma blendCh_mask_full {s : Nat} (c : Nat) (hs : s ≤ 255) : blendCh 255 c s = s := by
  unfold blendCh
  norm_num [muldiv255_y_zero, muldiv255_y_255 hs]

/-- Where the source alpha is 0, a masked paste retains the canvas pixel. -/
lemma pasteMaskPx_retain {c s : RGBA} (hc : BoundedPx c) (ha : s.a = 0) :
    pasteMaskPx c s = c := by
  obtain ⟨cr, cg, cb, ca⟩ := c
  obtain ⟨hr, hg, hb, hA⟩ := hc
  show RGBA.mk (blendCh s.a cr s.r) (blendCh s.a cg s.g) (blendCh s.a cb s.b)
      (blendCh s.a ca s.a) = ⟨cr, cg, cb, ca⟩
  rw [ha, blendCh_mask_zero _ hr, blendCh_mask_zero _ hg, blendCh_mask_zero _ hb,
    blendCh_mask_zero _ hA]

/-- Where the source alpha is 255, a masked paste overwrites with the
source pixel. -/
lemma pasteMaskPx_overwrite {c s : RGBA} (hs : BoundedPx s) (ha : s.a = 255) :
    pasteMaskPx c s = s := by
  obtain ⟨sr, sg, sb, sa⟩ := s
  obtain ⟨hr, hg, hb, hA⟩ := hs
  simp only at ha
  subst ha
  show RGBA.mk (blendCh 255 c.r sr) (blendCh 255 c.g sg) (blendCh 255 c.b sb)
      (blendCh 255 c.a 255) = ⟨sr, sg, sb, 255⟩
  rw [blendCh_mask_full _ hr, blendCh_mask_full _ hg, blendCh_mask_full _ hb,
    blendCh_mask_full _ (by omega)]

lemma pasteMaskPx_bounded {c s : RGBA} (hc : BoundedPx c) (hs : BoundedPx s) :
    BoundedPx (pasteMaskPx c s) :=
  ⟨blendCh_le_255 hs.2.2.2 hc.1 hs.1, blendCh_le_255 hs.2.2.2 hc.2.1 hs.2.1,
   blendCh_le_255 hs.2.2.2 hc.2.2.1 hs.2.2.1, blendCh_le_255 hs.2.2.2 hc.2.2.2 hs.2.2.2⟩

lemma transparentPx_bounded : BoundedPx transparentPx :=
  ⟨Nat.zero_le _, Nat.zero_le _, Nat.zero_le _, Nat.zero_le _⟩

/-- The running canvas stays 8-bit bounded at any fixed position, provided
every input frame is bounded there. -/
lemma canvasGo_bounded (w h x y : Nat) :
    ∀ (inputs : List (Img × Nat)) (canvas : Img) (n : Nat),
      (∀ p ∈ inputs, BoundedPx ((Prod.fst p).px x y)) →
      BoundedPx (canvas.px x y) →
      BoundedPx ((canvasGo w h canvas inputs n).px x y) := by
  intro inputs
  induction inputs with
  | nil =>
    intro canvas n _ hc
    cases n <;> simpa [canvasGo] using hc
  | cons p rest ih =>
    intro canvas n hb hc
    obtain ⟨f, d⟩ := p
    cases n with
    | zero => simpa [canvasGo] using hc
    | succ m =>
      show BoundedPx ((canvasGo w h
        (if d = 2 then transparentCanvas w h else pasteMask canvas f) rest m).px x y)
      apply ih _ m (fun q hq => hb q (List.mem_cons_of_mem _ hq))
      by_cases hd : d = 2
      · simpa [hd, transparentCanvas] using transparentPx_bounded
      · simp only [if_neg hd]
        exact pasteMaskPx_bounded hc (hb (f, d) (List.mem_cons_self _ _))

/-- Element `n` of the decoded frame list is the paste of source frame `n`
onto the canvas carried into iteration `n`. -/
lemma loadGo_getElem? (w h : Nat) :
    ∀ (inputs : List (Img × Nat)) (canvas : Img) (n : Nat) (f : Img) (d : Nat),
      inputs[n]? = some (f, d) →
      (loadGo w h canvas inputs)[n]? = some (pasteMask (canvasGo w h canvas inputs n) f) := by
  intro inputs
  induction inputs with
  | nil => intro canvas n f d hn; simp at hn
  | cons p rest ih =>
    intro canvas n f d hn
    obtain ⟨g, e⟩ := p
    cases n with
    | zero =>
      simp only [List.getElem?_cons_zero, Option.some.injEq] at hn
      obtain ⟨hg, he⟩ := Prod.mk.injEq .. ▸ hn
      subst hg
      simp [loadGo, canvasGo]
    | succ m =>
      simp only [List.getElem?_cons_succ] at hn
      have hrec := ih (if e = 2 then transparentCanvas w h else pasteMask canvas g) m f d hn
      simpa [loadGo, canvasGo] using hrec

/-- Unfolding the carried canvas one disposal step. -/
lemma canvasGo_succ (w h : Nat) :
    ∀ (inputs : List (Img × Nat)) (canvas : Img) (n : Nat) (f : Img) (d : Nat),
      inputs[n]? = some (f, d) →
      canvasGo w h canvas inputs (n + 1) =
        (if d = 2 then transparentCanvas w h else pasteMask (canvasGo w h canvas inputs n) f) := by
  intro inputs
  induction inputs with
  | nil => intro canvas n f d hn; simp at hn
  | cons p rest ih =>
    intro canvas n f d hn
    obtain ⟨g, e⟩ := p
    cases n with
    | zero =>
      simp only [List.getElem?_cons_zero, Option.some.injEq] at hn
      obtain ⟨hg, he⟩ := Prod.mk.injEq .. ▸ hn
      subst hg
      subst he
      simp [canvasGo]
    | succ m =>
      simp only [List.getElem?_cons_succ] at hn
      show canvasGo w h (if e = 2 then transparentCanvas w h else pasteMask canvas g)
          rest (m + 1) = _
      exact ih _ m f d hn

/-- Claim C1: for every asset and source frame `n`, the decoder composites
frame `n` onto the running canvas so that wherever the frame's alpha is
non-zero the composited pixel equals the frame's pixel, and wherever the
alpha is zero the composited pixel equals the carried canvas pixel.
Decoded GIF frames have binary alpha (0 or 255) after RGBA conversion,
which is the `ha` hypothesis. -/
theorem c1_composite_masks_by_alpha
    (w h n x y : Nat) (inputs : List (Img × Nat)) (f : Img) (d : Nat) (c : Img)
    (hb : ∀ p ∈ inputs, BoundedPx ((Prod.fst p).px x y))
    (hn : inputs[n]? = some (f, d))
    (ha : (f.px x y).a = 0 ∨ (f.px x y).a = 255)
    (hc : (load_gif_frames w h inputs)[n]? = some c) :
    ((f.px x y).a ≠ 0 → c.px x y = f.px x y) ∧
    ((f.px x y).a = 0 → c.px x y = (canvasBefore w h inputs n).px x y) := by
  have hkey := loadGo_getElem? w h inputs (transparentCanvas w h) n f d hn
  rw [load_gif_frames, hkey] at hc
  have hceq : pasteMask (canvasBefore w h inputs n) f = c := by
    injection hc
  rw [← hceq]
  have hfmem : (f, d) ∈ inputs := List.getElem?_mem hn
  constructor
  · intro hne
    have ha255 : (f.px x y).a = 255 := by rcases ha with h0 | h255 <;> omega
    exact pasteMaskPx_overwrite (hb (f, d) hfmem) ha255
  · intro h0
    have hcb : BoundedPx ((canvasBefore w h inputs n).px x y) :=
      canvasGo_bounded w h x y inputs (transparentCanvas w h) n hb transparentPx_bounded
    exact pasteMaskPx_retain hcb h0

def imgA1 : Img := ⟨1, 1, fun _ _ => ⟨10, 20, 30, 255⟩⟩

theorem c1_witness :
    (∀ p ∈ [(imgA1, (0 : Nat))], BoundedPx ((Prod.fst p).px 0 0)) ∧
    ([(imgA1, (0 : Nat))][0]? = some (imgA1, 0)) ∧
    ((imgA1.px 0 0).a = 0 ∨ (imgA1.px 0 0).a = 255) ∧
    ((load_gif_frames 1 1 [(imgA1, 0)])[0]? =
      some (pasteMask (transparentCanvas 1 1) imgA1)) ∧
    (((imgA1.px 0 0).a ≠ 0 →
        (pasteMask (transparentCanvas 1 1) imgA1).px 0 0 = imgA1.px 0 0) ∧
     ((imgA1.px 0 0).a = 0 →
        (pasteMask (transparentCanvas 1 1) imgA1).px 0 0 =
          (canvasBefore 1 1 [(imgA1, 0)] 0).px 0 0)) :=
  ⟨by decide, rfl, by decide, rfl,
   c1_composite_masks_by_alpha 1 1 0 0 0 [(imgA1, 0)] imgA1 0
     (pasteMask (transparentCanvas 1 1) imgA1) (by decide) rfl (by decide) rfl⟩

/-- Claim C5: at every pixel where source frame `n+1` has alpha zero the
composited frame `n+1` equals the canvas carried from frame `n`, which is
fully transparent when frame `n`'s disposal method was 2 (restore to
background) and the composited frame `n` otherwise; and the carried canvas
after frame `n` is exactly that. -/
theorem c5_disposal_invariant
    (w h n x y : Nat) (inputs : List (Img × Nat)) (f f' : Img) (d d' : Nat) (c c' : Img)
    (hb : ∀ p ∈ inputs, BoundedPx ((Prod.fst p).px x y))
    (hn : inputs[n]? = some (f, d))
    (hn' : inputs[n + 1]? = some (f', d'))
    (hc : (load_gif_frames w h inputs)[n]? = some c)
    (hc' : (load_gif_frames w h inputs)[n + 1]? = some c')
    (ha : (f'.px x y).a = 0) :
    c'.px x y = (if d = 2 then transparentPx else c.px x y) ∧
    canvasBefore w h inputs (n + 1) =
      (if d = 2 then transparentCanvas w h else pasteMask (canvasBefore w h inputs n) f) := by
  have hstep := canvasGo_succ w h inputs (transparentCanvas w h) n f d hn
  refine ⟨?_, hstep⟩
  have h1 := loadGo_getElem? w h inputs (transparentCanvas w h) (n + 1) f' d' hn'
  rw [load_gif_frames, h1] at hc'
  have hceq' : pasteMask (canvasBefore w h inputs (n + 1)) f' = c' := by
    injection hc'
  have hbnd : BoundedPx ((canvasBefore w h inputs (n + 1)).px x y) :=
    canvasGo_bounded w h x y inputs (transparentCanvas w h) (n + 1) hb transparentPx_bounded
  have hretain : c'.px x y = (canvasBefore w h inputs (n + 1)).px x y := by
    rw [← hceq']
    exact pasteMaskPx_retain hbnd ha
  rw [hretain]
  show (canvasGo w h (transparentCanvas w h) inputs (n + 1)).px x y = _
  rw [hstep]
  by_cases hd : d = 2
  · simp [hd, transparentCanvas]
  · simp only [if_neg hd]
    have h2 := loadGo_getElem? w h inputs (transparentCanvas w h) n f d hn
    rw [load_gif_frames, h2] at hc
    have hceq : pasteMask (canvasGo w h (transparentCanvas w h) inputs n) f = c := by
      injection hc
    rw [hceq]

def imgA5 : Img := ⟨1, 1, fun _ _ => ⟨10, 20, 30, 255⟩⟩

def imgB5 : Img := ⟨1, 1, fun _ _ => ⟨40, 50, 60, 0⟩⟩

theorem c5_witness :
    (∀ p ∈ [(imgA5, (2 : Nat)), (imgB5, 0)], BoundedPx ((Prod.fst p).px 0 0)) ∧
    ([(imgA5, (2 : Nat)), (imgB5, 0)][0]? = some (imgA5, 2)) ∧
    ([(imgA5, (2 : Nat)), (imgB5, 0)][1]? = some (imgB5, 0)) ∧
    ((imgB5.px 0 0).a = 0) ∧
    ((pasteMask (transparentCanvas 1 1) imgB5).px 0 0 =
      (if (2 : Nat) = 2 then transparentPx
       else (pasteMask (transparentCanvas 1 1) imgA5).px 0 0) ∧
     canvasBefore 1 1 [(imgA5, 2), (imgB5, 0)] 1 =
      (if (2 : Nat) = 2 then transparentCanvas 1 1
       else pasteMask (canvasBefore 1 1 [(imgA5, 2), (imgB5, 0)] 0) imgA5)) :=
  ⟨by decide, rfl, rfl, by decide,
   c5_disposal_invariant 1 1 0 0 0 [(imgA5, 2), (imgB5, 0)] imgA5 imgB5 2 0
     (pasteMask (transparentCanvas 1 1) imgA5) (pasteMask (transparentCanvas 1 1) imgB5)
     (by decide) rfl rfl rfl rfl (by decide)⟩

/-! ## Rasterizer (`frame_to_ansi`, cli.py lines 62-132)

Output is modelled as a list of tokens rather than raw strings: a token is
either an escape sequence (reset, set-foreground, set-foreground-and-
background) or a single glyph character, exactly mirroring the strings the
code appends to `parts`. PIL's `Image.resize(..., LANCZOS)` is an external
collaborator and is passed in as an abstract resampling function producing
the `(width, height)` pixel grid. -/

/-- A 24-bit color as an RGB triple. -/
abbrev RGB := Nat × Nat × Nat

/-- The per-column color requirement and glyph: `(cur_fg, cur_bg, char)`
from cli.py lines 91-98. -/
abbrev Col := Option RGB × Option RGB × Char

/-- The carried color state of a line: `(prev_fg, prev_bg)`. -/
abbrev ColorState := Option RGB × Option RGB

/-- One item appended to `parts`: an escape sequence or a glyph. -/
inductive Tok where
  | reset : Tok
  | setFG : RGB → Tok
  | setFGBG : RGB → RGB → Tok
  | glyph : Char → Tok
deriving DecidableEq

def Tok.isEscape : Tok → Bool
  | .glyph _ => false
  | _ => true

def Tok.isColorSet : Tok → Bool
  | .setFG _ => true
  | .setFGBG _ _ => true
  | _ => false

def Tok.isReset : Tok → Bool
  | .reset => true
  | _ => false

/-- Line-local mutable state of the rendering loop: `prev_fg`, `prev_bg`,
`in_color` (cli.py lines 79-81). -/
structure LineSt where
  prevFg : Option RGB
  prevBg : Option RGB
  inColor : Bool

/-- The column loop of cli.py lines 83-128 from a given state, including
the trailing reset of lines 127-128 when the list ends in color. -/
def renderCols : LineSt → List Col → List Tok
  | st, [] => if st.inColor then [Tok.reset] else []
  | st, (cfg, cbg, ch) :: rest =>
    if cfg = st.prevFg ∧ cbg = st.prevBg then
      Tok.glyph ch :: renderCols st rest
    else
      match cfg with
      | none =>
        (if st.inColor then [Tok.reset] else []) ++
          Tok.glyph ch :: renderCols ⟨none, cbg, false⟩ rest
      | some fg =>
        (if st.inColor then [Tok.reset] else []) ++
          (match cbg with
            | some bg => Tok.setFGBG fg bg
            | none => Tok.setFG fg) ::
            Tok.glyph ch :: renderCols ⟨some fg, cbg, true⟩ rest

/-- One rendered line from a column list, starting from the initial unset
state (`prev_fg = prev_bg = None`, `in_color = False`). -/
def renderLine (cols : List Col) : List Tok :=
  renderCols ⟨none, none, false⟩ cols

/-- The four-state classification of a top/bottom pixel pair with the
alpha-30 threshold (cli.py lines 91-98). -/
def classify (p1 p2 : RGBA) : Col :=
  if p1.a < 30 ∧ p2.a < 30 then (none, none, ' ')
  else if p1.a < 30 then (some (p2.r, p2.g, p2.b), none, '▄')
  else if p2.a < 30 then (some (p1.r, p1.g, p1.b), none, '▀')
  else (some (p1.r, p1.g, p1.b), some (p2.r, p2.g, p2.b), '▀')

/-- Target height computation of cli.py lines 69-71: Python
`int(width * orig_h / orig_w)` truncates, then the height is bumped to the
next even number. -/
def codeHeight (W0 H0 W : Nat) : Nat :=
  let h0 := W * H0 / W0
  h0 + h0 % 2

/-- Modelled from the spec (refinement target, not from the source): the
spec's height rule `nextEven(round(W·H0/W0))`, with half-up tie rounding
(the counterexample below is tie-free, so the tie rule is irrelevant). -/
def specHeight (W0 H0 W : Nat) : Nat :=
  let r := (2 * (W * H0) + W0) / (2 * W0)
  r + r % 2

/-- An abstract resampler standing for PIL `Image.resize`: source image,
target width and target height to the resampled pixel grid. -/
abbrev ResizeFn := Img → Nat → Nat → (Nat → Nat → RGBA)

/-- The classified columns of the row pair starting at row `y` of a
`width × height` resampled grid; out-of-range bottom rows read as fully
transparent black (cli.py lines 86-88). -/
def colsAt (px : Nat → Nat → RGBA) (width height y : Nat) : List Col :=
  (List.range width).map fun x =>
    classify (px x y) (if y + 1 < height then px x (y + 1) else transparentPx)

/-- The columns feeding the line of row pair `y` of `frame_to_ansi`. -/
def lineCols (resize : ResizeFn) (image : Img) (width y : Nat) : List Col :=
  let height := codeHeight image.width image.height width
  colsAt (resize image width height) width height y

/-- `frame_to_ansi` (cli.py lines 62-132): the list of rendered lines, one
per row pair `y ∈ range(0, height, 2)`. -/
def frame_to_ansi (resize : ResizeFn) (image : Img) (width : Nat) : List (List Tok) :=
  let height := codeHeight image.width image.height width
  (List.range ((height + 1) / 2)).map fun i => renderLine (lineCols resize image width (2 * i))

/-- `mirror_frames`' per-frame horizontal flip,
`transpose(Image.Transpose.FLIP_LEFT_RIGHT)` (cli.py lines 55-57). -/
def mirrorImg (i : Img) : Img :=
  ⟨i.width, i.height, fun x y => i.px (i.width - 1 - x) y⟩

/-- `mirror_frames` (cli.py lines 55-57). -/
def mirror_frames (fs : List Img) : List Img := fs.map mirrorImg

def escCount (l : List Tok) : Nat := l.countP Tok.isEscape

def setCount (l : List Tok) : Nat := l.countP Tok.isColorSet

def resetCount (l : List Tok) : Nat := l.countP Tok.isReset

/-- The color-state sequence of a column list. -/
def statesOf (cols : List Col) : List ColorState :=
  cols.map fun c => (c.1, c.2.1)

/-- Number of adjacent state changes along a state sequence, starting from
a previous state. -/
def stateChanges : ColorState → List ColorState → Nat
  | _, [] => 0
  | prev, t :: ts => (if t = prev then 0 else 1) + stateChanges t ts

/-- Number of distinct adjacent color-state transitions of a line,
counting the initial transition out of the unset state. -/
def transitions (cols : List Col) : Nat :=
  stateChanges (none, none) (statesOf cols)

lemma countP_glyph_map_colorSet (l : List Col) :
    List.countP Tok.isColorSet (l.map fun c => Tok.glyph c.2.2) = 0 := by
  induction l with
  | nil => simp
  | cons c rest ih => simp [List.countP_cons, Tok.isColorSet, ih]

lemma countP_glyph_map_reset (l : List Col) :
    List.countP Tok.isReset (l.map fun c => Tok.glyph c.2.2) = 0 := by
  induction l with
  | nil => simp
  | cons c rest ih => simp [List.countP_cons, Tok.isReset, ih]

lemma escCount_cons_glyph (ch : Char) (l : List Tok) :
    escCount (Tok.glyph ch :: l) = escCount l := by
  simp [escCount, List.countP_cons, Tok.isEscape]

/-- Once the carried state matches every remaining column, the loop emits
only glyphs plus the single trailing reset. -/
lemma renderCols_steady (fg : RGB) (cbg : Option RGB) :
    ∀ cols : List Col,
      (∀ c ∈ cols, c.1 = some fg ∧ c.2.1 = cbg) →
      renderCols ⟨some fg, cbg, true⟩ cols =
        (cols.map fun c => Tok.glyph c.2.2) ++ [Tok.reset] := by
  intro cols
  induction cols with
  | nil => intro _; simp [renderCols]
  | cons c rest ih =>
    intro hu
    obtain ⟨cfg, cbg', ch⟩ := c
    have h1 : cfg = some fg := (hu (cfg, cbg', ch) (List.mem_cons_self _ _)).1
    have h2 : cbg' = cbg := (hu (cfg, cbg', ch) (List.mem_cons_self _ _)).2
    subst h1
    subst h2
    simp [renderCols, ih (fun c hc => hu c (List.mem_cons_of_mem _ hc))]

/-- A non-empty uniformly colored line yields exactly one color-set
sequence and exactly one trailing reset. -/
lemma renderLine_uniform (cols : List Col) (fg : RGB) (cbg : Option RGB)
    (hne : cols ≠ []) (hu : ∀ c ∈ cols, c.1 = some fg ∧ c.2.1 = cbg) :
    setCount (renderLine cols) = 1 ∧ resetCount (renderLine cols) = 1 ∧
      (renderLine cols).getLast? = some Tok.reset := by
  obtain ⟨c, rest, rfl⟩ : ∃ c rest, cols = c :: rest := by
    cases cols with
    | nil => exact absurd rfl hne
    | cons c rest => exact ⟨c, rest, rfl⟩
  obtain ⟨cfg, cbg', ch⟩ := c
  have h1 : cfg = some fg := (hu _ (List.mem_cons_self _ _)).1
  have h2 : cbg' = cbg := (hu _ (List.mem_cons_self _ _)).2
  subst h1
  subst h2
  rcases cbg' with _ | bg
  · have hsteady := renderCols_steady fg none rest (fun c hc => hu c (List.mem_cons_of_mem _ hc))
    have hfirst : renderLine ((some fg, none, ch) :: rest) =
        Tok.setFG fg :: Tok.glyph ch :: renderCols ⟨some fg, none, true⟩ rest := by
      simp [renderLine, renderCols]
    rw [hfirst, hsteady]
    refine ⟨?_, ?_, ?_⟩
    · simp [setCount, List.countP_cons, List.countP_append, Tok.isColorSet,
        countP_glyph_map_colorSet]
    · simp [resetCount, List.countP_cons, List.countP_append, Tok.isReset,
        countP_glyph_map_reset]
    · show (_ :: _ :: (_ ++ [Tok.reset])).getLast? = some Tok.reset
      rw [← List.cons_append, ← List.cons_append]
      exact List.getLast?_concat _
  · have hsteady := renderCols_steady fg (some bg) rest
      (fun c hc => hu c (List.mem_cons_of_mem _ hc))
    have hfirst : renderLine ((some fg, some bg, ch) :: rest) =
        Tok.setFGBG fg bg :: Tok.glyph ch :: renderCols ⟨some fg, some bg, true⟩ rest := by
      simp [renderLine, renderCols]
    rw [hfirst, hsteady]
    refine ⟨?_, ?_, ?_⟩
    · simp [setCount, List.countP_cons, List.countP_append, Tok.isColorSet,
        countP_glyph_map_colorSet]
    · simp [resetCount, List.countP_cons, List.countP_append, Tok.isReset,
        countP_glyph_map_reset]
    · show (_ :: _ :: (_ ++ [Tok.reset])).getLast? = some Tok.reset
      rw [← List.cons_append, ← List.cons_append]
      exact List.getLast?_concat _

/-- Per-line escape budget: at most two escapes per color-state change
(counting the initial change out of the unset state), plus the trailing
reset already accounted against the last change. -/
lemma escCount_renderCols_le :
    ∀ (cols : List Col) (st : LineSt),
      escCount (renderCols st cols) ≤
        2 * stateChanges (st.prevFg, st.prevBg) (statesOf cols) +
          (if st.inColor then 1 else 0) := by
  intro cols
  induction cols with
  | nil =>
    intro st
    cases h : st.inColor <;>
      simp [renderCols, statesOf, stateChanges, escCount, h, Tok.isEscape, List.countP_cons]
  | cons c rest ih =>
    intro st
    obtain ⟨cfg, cbg, ch⟩ := c
    by_cases hch : cfg = st.prevFg ∧ cbg = st.prevBg
    · obtain ⟨h1, h2⟩ := hch
      subst h1
      subst h2
      have hih := ih st
      simp only [renderCols, and_self, if_true, eq_self_iff_true, escCount_cons_glyph,
        statesOf, List.map_cons, stateChanges]
      simp only [statesOf] at hih
      omega
    · have hne2 : ((cfg, cbg) : ColorState) ≠ (st.prevFg, st.prevBg) := by
        intro hcon
        rw [Prod.mk.injEq] at hcon
        exact hch hcon
      cases cfg with
      | none =>
        have hih := ih ⟨none, cbg, false⟩
        simp only [statesOf, escCount, Bool.false_eq_true, eq_self_iff_true, if_true,
          if_false] at hih
        cases hic : st.inColor <;>
        · simp only [renderCols, if_neg hch, hic, statesOf, List.map_cons, stateChanges,
            if_neg hne2, escCount, List.countP_cons, List.countP_append, Tok.isEscape,
            List.countP_nil, Bool.false_eq_true, eq_self_iff_true, if_true, if_false]
          omega
      | some fg =>
        have hih := ih ⟨some fg, cbg, true⟩
        simp only [statesOf, escCount, Bool.false_eq_true, eq_self_iff_true, if_true,
          if_false] at hih
        rcases cbg with _ | bg <;> cases hic : st.inColor <;>
        · simp only [renderCols, if_neg hch, hic, statesOf, List.map_cons, stateChanges,
            if_neg hne2, escCount, List.countP_cons, List.countP_append, Tok.isEscape,
            List.countP_nil, Bool.false_eq_true, eq_self_iff_true, if_true, if_false]
          omega

lemma renderLine_escBound (cols : List Col) :
    escCount (renderLine cols) ≤ 2 * transitions cols := by
  have h := escCount_renderCols_le cols ⟨none, none, false⟩
  simpa [renderLine, transitions] using h

/-- Claim C2 (amended): the rasterizer's computed target height equals
`W·H0/W0` truncated (Python `int()` of the float quotient), incremented by
one when odd, and the returned frame has exactly `height / 2` lines. The
claim's `round` is replaced by truncation, which is what the source does. -/
theorem c2_line_count (resize : ResizeFn) (image : Img) (width : Nat) :
    (frame_to_ansi resize image width).length =
      codeHeight image.width image.height width / 2 ∧
    codeHeight image.width image.height width =
      width * image.height / image.width + (width * image.height / image.width) % 2 := by
  constructor
  · simp only [frame_to_ansi, List.length_map, List.length_range, codeHeight]
    omega
  · simp only [codeHeight]

/-- Claim C2 as stated is false on the code: for a 5×1 source frame at
target width 13 the quotient is 2.6, the code truncates to height 2 and
produces 1 line, while the claim's `nextEven(round(2.6)) = 4` demands
`4 / 2 = 2` lines. -/
theorem c2_counterexample :
    (frame_to_ansi (fun _ _ _ => fun _ _ => transparentPx)
        ⟨5, 1, fun _ _ => transparentPx⟩ 13).length = 1 ∧
    specHeight 5 1 13 = 4 ∧ specHeight 5 1 13 / 2 = 2 := by
  refine ⟨by decide, by decide, by decide⟩

/-- Claim C3: a line all of whose columns resolve to one and the same
colored `(fg, bg)` combination renders with exactly one color-set escape
and exactly one trailing reset, independently of the width; and in general
the number of escape sequences in a line is at most twice the number of
distinct adjacent color-state transitions (counting the initial transition
out of the unset state), not the line width. -/
theorem c3_escape_minimization (resize : ResizeFn) (image : Img) (width y : Nat) :
    escCount (renderLine (lineCols resize image width y)) ≤
      2 * transitions (lineCols resize image width y) ∧
    (∀ fg : RGB, ∀ cbg : Option RGB,
      lineCols resize image width y ≠ [] →
      (∀ c ∈ lineCols resize image width y, c.1 = some fg ∧ c.2.1 = cbg) →
      setCount (renderLine (lineCols resize image width y)) = 1 ∧
      resetCount (renderLine (lineCols resize image width y)) = 1 ∧
      (renderLine (lineCols resize image width y)).getLast? = some Tok.reset) := by
  constructor
  · exact renderLine_escBound _
  · intro fg cbg hne hu
    exact renderLine_uniform _ fg cbg hne hu

def imgC3 : Img := ⟨2, 2, fun _ y => if y = 0 then ⟨9, 9, 9, 255⟩ else ⟨8, 8, 8, 255⟩⟩

theorem c3_witness :
    (lineCols (fun i _ _ => i.px) imgC3 2 0 ≠ [] ∧
      (∀ c ∈ lineCols (fun i _ _ => i.px) imgC3 2 0,
        c.1 = some (9, 9, 9) ∧ c.2.1 = some (8, 8, 8))) ∧
    (setCount (renderLine (lineCols (fun i _ _ => i.px) imgC3 2 0)) = 1 ∧
      resetCount (renderLine (lineCols (fun i _ _ => i.px) imgC3 2 0)) = 1 ∧
      (renderLine (lineCols (fun i _ _ => i.px) imgC3 2 0)).getLast? = some Tok.reset) :=
  ⟨⟨by decide, by decide⟩,
   (c3_escape_minimization (fun i _ _ => i.px) imgC3 2 0).2 (9, 9, 9) (some (8, 8, 8))
     (by decide) (by decide)⟩

/-- Claim C4: the threshold `opaque iff alpha ≥ 30` classifies each pixel
pair into exactly the four glyph states of cli.py lines 91-98. -/
theorem c4_classification (p1 p2 : RGBA) :
    (p1.a < 30 → p2.a < 30 → classify p1 p2 = (none, none, ' ')) ∧
    (p1.a < 30 → 30 ≤ p2.a → classify p1 p2 = (some (p2.r, p2.g, p2.b), none, '▄')) ∧
    (30 ≤ p1.a → p2.a < 30 → classify p1 p2 = (some (p1.r, p1.g, p1.b), none, '▀')) ∧
    (30 ≤ p1.a → 30 ≤ p2.a →
      classify p1 p2 = (some (p1.r, p1.g, p1.b), some (p2.r, p2.g, p2.b), '▀')) := by
  refine ⟨fun h1 h2 => ?_, fun h1 h2 => ?_, fun h1 h2 => ?_, fun h1 h2 => ?_⟩
  · simp [classify, h1, h2]
  · have h2' : ¬ p2.a < 30 := by omega
    simp [classify, h1, h2']
  · have h1' : ¬ p1.a < 30 := by omega
    simp [classify, h1', h2]
  · have h1' : ¬ p1.a < 30 := by omega
    have h2' : ¬ p2.a < 30 := by omega
    simp [classify, h1', h2']

theorem c4_witness :
    (30 ≤ (RGBA.mk 0 0 0 200).a ∧ 30 ≤ (RGBA.mk 1 2 3 40).a) ∧
    classify ⟨0, 0, 0, 200⟩ ⟨1, 2, 3, 40⟩ = (some (0, 0, 0), some (1, 2, 3), '▀') :=
  ⟨⟨by decide, by decide⟩,
   (c4_classification ⟨0, 0, 0, 200⟩ ⟨1, 2, 3, 40⟩).2.2.2 (by decide) (by decide)⟩

/-- Claim C7: provided the resampler commutes with the horizontal flip
(true of PIL's symmetric Lanczos kernel, abstracted here), the rasterized
glyph content of the mirrored frame at column `x` equals the glyph content
of the original frame at column `W - 1 - x`, in every row, for every
width. -/
theorem c7_mirror_symmetry (resize : ResizeFn) (image : Img) (W x y : Nat)
    (hcomm : ∀ x', x' < W → ∀ y', y' < codeHeight image.width image.height W →
      resize (mirrorImg image) W (codeHeight image.width image.height W) x' y' =
        resize image W (codeHeight image.width image.height W) (W - 1 - x') y')
    (hx : x < W) (hy : y < codeHeight image.width image.height W) :
    (lineCols resize (mirrorImg image) W y)[x]? =
      (lineCols resize image W y)[W - 1 - x]? := by
  have hW1 : W - 1 - x < W := by omega
  have hdim : codeHeight (mirrorImg image).width (mirrorImg image).height W =
      codeHeight image.width image.height W := rfl
  simp only [lineCols, colsAt, hdim]
  rw [List.getElem?_map, List.getElem?_map, List.getElem?_range hx, List.getElem?_range hW1]
  simp only [Option.map_some']
  have htop := hcomm x hx y hy
  have hbot : (if y + 1 < codeHeight image.width image.height W then
        resize (mirrorImg image) W (codeHeight image.width image.height W) x (y + 1)
      else transparentPx) =
      (if y + 1 < codeHeight image.width image.height W then
        resize image W (codeHeight image.width image.height W) (W - 1 - x) (y + 1)
      else transparentPx) := by
    by_cases hy1 : y + 1 < codeHeight image.width image.height W
    · simp only [if_pos hy1]
      exact hcomm x hx (y + 1) hy1
    · simp only [if_neg hy1]
  rw [htop, hbot]

def imgC7 : Img := ⟨2, 2, fun x y => ⟨x, y, x + y, 255⟩⟩

theorem c7_witness :
    ((∀ x', x' < 2 → ∀ y', y' < codeHeight imgC7.width imgC7.height 2 →
      (fun (i : Img) (_ _ : Nat) => i.px) (mirrorImg imgC7) 2
          (codeHeight imgC7.width imgC7.height 2) x' y' =
        (fun (i : Img) (_ _ : Nat) => i.px) imgC7 2
          (codeHeight imgC7.width imgC7.height 2) (2 - 1 - x') y') ∧
      0 < 2 ∧ 0 < codeHeight imgC7.width imgC7.height 2) ∧
    (lineCols (fun i _ _ => i.px) (mirrorImg imgC7) 2 0)[0]? =
      (lineCols (fun i _ _ => i.px) imgC7 2 0)[2 - 1 - 0]? :=
  ⟨⟨by decide, by decide, by decide⟩,
   c7_mirror_symmetry (fun i _ _ => i.px) imgC7 2 0 0 (by decide) (by decide) (by decide)⟩

/-! ## Pinger (`do_ping`, cli.py lines 164-192)

The subprocess run and the regex/number parsing are external
collaborators; `do_ping` here is the control flow of the Python function
over their outcomes. -/

/-- The result dict of `do_ping`: exactly the two shapes of cli.py
lines 181-192. -/
inductive PingOutcome where
  | success (time_ms : ℚ) (ttl : Nat)
  | failure (error : String)
deriving DecidableEq

/-- Outcome of `subprocess.run(cmd, ..., timeout=5)`: it completes with
captured stdout, exceeds the timeout, or raises some other exception. -/
inductive ProcResult where
  | timedOut
  | raised (msg : String)
  | completed (stdout : String)

/-- The `timeout=5` argument of the subprocess call (cli.py line 174). -/
def pingTimeout : Nat := 5

/-- `do_ping` (cli.py lines 164-192): `timeMatch`/`ttlMatch` stand for the
two `re.search` calls returning the matched group, `toFloat`/`toInt` for
Python `float`/`int` conversion of the matched digits. -/
def do_ping (run : ProcResult) (timeMatch ttlMatch : String → Option String)
    (toFloat : String → ℚ) (toInt : String → Nat) : PingOutcome :=
  match run with
  | .timedOut => .failure "Request timed out"
  | .raised msg => .failure msg
  | .completed out =>
    match timeMatch out with
    | some ts =>
      .success (toFloat ts) (match ttlMatch out with | some t => toInt t | none => 0)
    | none => .failure "Request timed out"

/-- Claim C8: for every probe environment the ping wrapper returns exactly
one of the two record shapes (success with rational milliseconds and
integer TTL, or failure with a reason string), and the underlying call is
bounded by the internal 5-unit timeout, within the spec's 2-5 range. -/
theorem c8_ping_result_shape (run : ProcResult)
    (timeMatch ttlMatch : String → Option String)
    (toFloat : String → ℚ) (toInt : String → Nat) :
    ((∃ ms ttl, do_ping run timeMatch ttlMatch toFloat toInt = .success ms ttl) ∨
      (∃ msg, do_ping run timeMatch ttlMatch toFloat toInt = .failure msg)) ∧
    2 ≤ pingTimeout ∧ pingTimeout ≤ 5 := by
  refine ⟨?_, by norm_num [pingTimeout], by norm_num [pingTimeout]⟩
  cases run with
  | timedOut => exact Or.inr ⟨_, rfl⟩
  | raised msg => exact Or.inr ⟨_, rfl⟩
  | completed out =>
    cases h : timeMatch out with
    | none => exact Or.inr ⟨"Request timed out", by simp [do_ping, h]⟩
    | some ts =>
      exact Or.inl ⟨toFloat ts,
        (match ttlMatch out with | some t => toInt t | none => 0), by simp [do_ping, h]⟩

/-! ## Animation controller (`main`, cli.py lines 278-356)

The session loop is embedded as a deterministic function of the frame
count, the sequence of ping results, and the trace of values the
`interrupted` flag has at each successive read (poll).  Every read of the
flag advances the poll index by one; the reads happen exactly where the
code checks `if interrupted` (loop top, each sip frame, after the sip
loop, each clink frame, after the clink loop). The SIGINT handler only
ever sets the flag, so the flag trace is a step function `intrAt T`
flipping to true at poll `T`. -/

/-- Session state: the stats counters, committed log lines, number of
probes performed, frames actually drawn in each phase, the poll index,
and cursor visibility. -/
structure Sess where
  sent : Nat
  received : Nat
  times : List ℚ
  log_count : Nat
  pings_done : Nat
  sip_frames_drawn : Nat
  clink_frames_drawn : Nat
  poll : Nat
  cursor_hidden : Bool
deriving DecidableEq

/-- The flag trace of a single SIGINT delivered between poll `T - 1` and
poll `T`: false before, true from then on. -/
def intrAt (T : Nat) : Nat → Bool := fun t => decide (T ≤ t)

/-- One per-frame render loop (cli.py lines 309-313 and 331-335): checks
the flag before each frame, breaking on the first true read; returns the
number of frames drawn and the next poll index. -/
def animLoop (intr : Nat → Bool) : Nat → Nat → Nat × Nat
  | 0, t => (0, t)
  | n + 1, t =>
    if intr t then (0, t + 1)
    else
      let r := animLoop intr n (t + 1)
      (r.1 + 1, r.2)

/-- `received += 1` contribution of one ping result (cli.py line 324). -/
def succOf : PingOutcome → Nat
  | .success _ _ => 1
  | .failure _ => 0

/-- `times.append(...)` contribution of one ping result (cli.py line 325). -/
def timesOf : PingOutcome → List ℚ
  | .success ms _ => [ms]
  | .failure _ => []

/-- Number of successful pings among `j` consecutive results starting at
index `start`. -/
def succCount (p : Nat → PingOutcome) : Nat → Nat → Nat
  | _, 0 => 0
  | start, j + 1 => succOf (p start) + succCount p (start + 1) j

/-- The `for seq in range(args.count)` loop of cli.py lines 298-346:
top-of-loop flag check, `sent += 1`, sip loop, post-sip check, one ping,
clink loop, post-clink check, log-line commit. -/
def runCycles (F : Nat) (pings : Nat → PingOutcome) (intr : Nat → Bool) :
    Nat → Sess → Sess
  | 0, s => s
  | n + 1, s =>
    if intr s.poll then { s with poll := s.poll + 1 }
    else
      let s1 := { s with poll := s.poll + 1, sent := s.sent + 1 }
      let a1 := animLoop intr F s1.poll
      let s2 := { s1 with sip_frames_drawn := s1.sip_frames_drawn + a1.1, poll := a1.2 }
      if intr s2.poll then { s2 with poll := s2.poll + 1 }
      else
        let s3 := { s2 with poll := s2.poll + 1 }
        let s4 := { s3 with pings_done := s3.pings_done + 1,
                            received := s3.received + succOf (pings s3.pings_done),
                            times := s3.times ++ timesOf (pings s3.pings_done) }
        let a2 := animLoop intr F s4.poll
        let s5 := { s4 with clink_frames_drawn := s4.clink_frames_drawn + a2.1, poll := a2.2 }
        if intr s5.poll then { s5 with poll := s5.poll + 1 }
        else
          let s6 := { s5 with poll := s5.poll + 1, log_count := s5.log_count + 1 }
          runCycles F pings intr n s6

/-- Initial session state: counters zero, cursor hidden (cli.py
lines 278-295). -/
def initSess : Sess := ⟨0, 0, [], 0, 0, 0, 0, 0, true⟩

/-- The whole animated session: run `count` cycles, then the `finally`
block restores cursor visibility (cli.py lines 348-351). -/
def runSession (count F : Nat) (pings : Nat → PingOutcome) (intr : Nat → Bool) : Sess :=
  let s := runCycles F pings intr count initSess
  { s with cursor_hidden := false }

/-- The summary's loss percentage (cli.py line 354):
`(sent - received) / sent * 100` when any sips were sent, else 0. -/
def lossPercent (s : Sess) : ℚ :=
  if 0 < s.sent then (((s.sent : ℚ) - (s.received : ℚ)) / (s.sent : ℚ)) * 100 else 0

/-- The cumulative effect of one uninterrupted cycle on the session. -/
def cleanCycle (F : Nat) (pings : Nat → PingOutcome) (s : Sess) : Sess :=
  { s with sent := s.sent + 1,
           received := s.received + succOf (pings s.pings_done),
           times := s.times ++ timesOf (pings s.pings_done),
           pings_done := s.pings_done + 1,
           log_count := s.log_count + 1,
           sip_frames_drawn := s.sip_frames_drawn + F,
           clink_frames_drawn := s.clink_frames_drawn + F,
           poll := s.poll + (2 * F + 3) }

/-- `j` consecutive uninterrupted cycles. -/
def cleanIter (F : Nat) (pings : Nat → PingOutcome) : Nat → Sess → Sess
  | 0, s => s
  | j + 1, s => cleanIter F pings j (cleanCycle F pings s)

lemma intrAt_false {T t : Nat} (h : t < T) : intrAt T t = false := by
  simp only [intrAt, decide_eq_false_iff_not]
  omega

lemma intrAt_true {T t : Nat} (h : T ≤ t) : intrAt T t = true := by
  simp only [intrAt, decide_eq_true_eq]
  omega

/-- An animation loop whose polls all come before the flag flips draws all
`F` frames and advances the poll index by `F`. -/
lemma animLoop_run (T : Nat) :
    ∀ F t : Nat, t + F ≤ T → animLoop (intrAt T) F t = (F, t + F) := by
  intro F
  induction F with
  | zero => intro t _; simp [animLoop]
  | succ n ih =>
    intro t h
    have hf : intrAt T t = false := intrAt_false (by omega)
    simp only [animLoop, hf, Bool.false_eq_true, if_false]
    rw [ih (t + 1) (by omega)]
    have harith : t + 1 + n = t + (n + 1) := by omega
    simp [harith]

/-- An animation loop that reads a true flag mid-way breaks at the first
true poll, drawing `T - t` frames. -/
lemma animLoop_halt (T : Nat) :
    ∀ F t : Nat, t ≤ T → T < t + F → animLoop (intrAt T) F t = (T - t, T + 1) := by
  intro F
  induction F with
  | zero => intro t h1 h2; omega
  | succ n ih =>
    intro t h1 h2
    by_cases he : T ≤ t
    · have heq : T = t := by omega
      subst heq
      have hT : intrAt T T = true := intrAt_true (le_refl _)
      simp [animLoop, hT]
    · have hf : intrAt T t = false := intrAt_false (by omega)
      simp only [animLoop, hf, Bool.false_eq_true, if_false]
      rw [ih (t + 1) (by omega) (by omega)]
      have harith : T - (t + 1) + 1 = T - t := by omega
      simp [harith]

/-- A cycle all of whose polls come before the flag flips runs to its
commit and is summarized by `cleanCycle`. -/
lemma runCycles_clean_step (F : Nat) (p : Nat → PingOutcome) (T n : Nat) (s : Sess)
    (h : s.poll + (2 * F + 3) ≤ T) :
    runCycles F p (intrAt T) (n + 1) s = runCycles F p (intrAt T) n (cleanCycle F p s) := by
  have h0 : intrAt T s.poll = false := intrAt_false (by omega)
  have h1 : animLoop (intrAt T) F (s.poll + 1) = (F, s.poll + 1 + F) :=
    animLoop_run T F (s.poll + 1) (by omega)
  have h2 : intrAt T (s.poll + 1 + F) = false := intrAt_false (by omega)
  have h3 : animLoop (intrAt T) F (s.poll + 1 + F + 1) = (F, s.poll + 1 + F + 1 + F) :=
    animLoop_run T F _ (by omega)
  have h4 : intrAt T (s.poll + 1 + F + 1 + F) = false := intrAt_false (by omega)
  simp only [runCycles, h0, h1, h2, h3, h4, Bool.false_eq_true, if_false]
  apply congrArg (runCycles F p (intrAt T) n)
  simp only [cleanCycle, Sess.mk.injEq]
  refine ⟨?_, ?_, ?_, ?_, ?_, ?_, ?_, ?_, ?_⟩ <;> first | trivial | omega

/-- `j` uninterrupted cycles peel off into `cleanIter`. -/
lemma runCycles_clean_iter (F : Nat) (p : Nat → PingOutcome) (T : Nat) :
    ∀ (j n : Nat) (s : Sess), j ≤ n → s.poll + j * (2 * F + 3) ≤ T →
      runCycles F p (intrAt T) n s =
        runCycles F p (intrAt T) (n - j) (cleanIter F p j s) := by
  intro j
  induction j with
  | zero => intro n s _ _; simp [cleanIter]
  | succ i ih =>
    intro n s hj hp
    obtain ⟨m, rfl⟩ : ∃ m, n = m + 1 := ⟨n - 1, by omega⟩
    have hmul : (i + 1) * (2 * F + 3) = (2 * F + 3) + i * (2 * F + 3) := by ring
    rw [hmul] at hp
    have hstep := runCycles_clean_step F p T m s (by omega)
    rw [hstep]
    have hpoll : (cleanCycle F p s).poll = s.poll + (2 * F + 3) := rfl
    have hcond : (cleanCycle F p s).poll + i * (2 * F + 3) ≤ T := by
      rw [hpoll]
      omega
    rw [ih m (cleanCycle F p s) (by omega) hcond]
    have hsub : m + 1 - (i + 1) = m - i := by omega
    rw [hsub]
    rfl

/-- Field-wise effect of `j` uninterrupted cycles. -/
lemma cleanIter_fields (F : Nat) (p : Nat → PingOutcome) :
    ∀ (j : Nat) (s : Sess),
      (cleanIter F p j s).sent = s.sent + j ∧
      (cleanIter F p j s).pings_done = s.pings_done + j ∧
      (cleanIter F p j s).log_count = s.log_count + j ∧
      (cleanIter F p j s).sip_frames_drawn = s.sip_frames_drawn + j * F ∧
      (cleanIter F p j s).clink_frames_drawn = s.clink_frames_drawn + j * F ∧
      (cleanIter F p j s).poll = s.poll + j * (2 * F + 3) ∧
      (cleanIter F p j s).received = s.received + succCount p s.pings_done j ∧
      (cleanIter F p j s).cursor_hidden = s.cursor_hidden := by
  intro j
  induction j with
  | zero => intro s; simp [cleanIter, succCount]
  | succ i ih =>
    intro s
    obtain ⟨h1, h2, h3, h4, h5, h6, h7, h8⟩ := ih (cleanCycle F p s)
    refine ⟨?_, ?_, ?_, ?_, ?_, ?_, ?_, ?_⟩
    · show (cleanIter F p i (cleanCycle F p s)).sent = s.sent + (i + 1)
      rw [h1]
      show s.sent + 1 + i = s.sent + (i + 1)
      ring
    · show (cleanIter F p i (cleanCycle F p s)).pings_done = s.pings_done + (i + 1)
      rw [h2]
      show s.pings_done + 1 + i = s.pings_done + (i + 1)
      ring
    · show (cleanIter F p i (cleanCycle F p s)).log_count = s.log_count + (i + 1)
      rw [h3]
      show s.log_count + 1 + i = s.log_count + (i + 1)
      ring
    · show (cleanIter F p i (cleanCycle F p s)).sip_frames_drawn =
        s.sip_frames_drawn + (i + 1) * F
      rw [h4]
      show s.sip_frames_drawn + F + i * F = s.sip_frames_drawn + (i + 1) * F
      ring
    · show (cleanIter F p i (cleanCycle F p s)).clink_frames_drawn =
        s.clink_frames_drawn + (i + 1) * F
      rw [h5]
      show s.clink_frames_drawn + F + i * F = s.clink_frames_drawn + (i + 1) * F
      ring
    · show (cleanIter F p i (cleanCycle F p s)).poll = s.poll + (i + 1) * (2 * F + 3)
      rw [h6]
      show s.poll + (2 * F + 3) + i * (2 * F + 3) = s.poll + (i + 1) * (2 * F + 3)
      ring
    · show (cleanIter F p i (cleanCycle F p s)).received =
        s.received + succCount p s.pings_done (i + 1)
      rw [h7]
      show s.received + succOf (p s.pings_done) + succCount p (s.pings_done + 1) i =
        s.received + succCount p s.pings_done (i + 1)
      simp only [succCount]
      ring
    · show (cleanIter F p i (cleanCycle F p s)).cursor_hidden = s.cursor_hidden
      rw [h8]
      rfl

lemma succCount_le (p : Nat → PingOutcome) : ∀ j start : Nat, succCount p start j ≤ j := by
  intro j
  induction j with
  | zero => intro start; simp [succCount]
  | succ i ih =>
    intro start
    have h := ih (start + 1)
    have hone : succOf (p start) ≤ 1 := by cases p start <;> simp [succOf]
    simp only [succCount]
    omega

/-- A cycle whose flag flips after its top-of-loop check but no later than
its post-sip check increments only `sent` (and possibly sip frames): no
ping, no clink frame, no log commit, no received update. -/
lemma runCycles_aborted (F : Nat) (p : Nat → PingOutcome) (T n : Nat) (s : Sess)
    (h1 : s.poll < T) (h2 : T ≤ s.poll + F + 1) :
    (runCycles F p (intrAt T) (n + 1) s).log_count = s.log_count ∧
    (runCycles F p (intrAt T) (n + 1) s).pings_done = s.pings_done ∧
    (runCycles F p (intrAt T) (n + 1) s).clink_frames_drawn = s.clink_frames_drawn ∧
    (runCycles F p (intrAt T) (n + 1) s).sent = s.sent + 1 ∧
    (runCycles F p (intrAt T) (n + 1) s).received = s.received ∧
    (runCycles F p (intrAt T) (n + 1) s).cursor_hidden = s.cursor_hidden := by
  have h0 : intrAt T s.poll = false := intrAt_false h1
  rcases Nat.lt_or_ge T (s.poll + 1 + F) with hcase | hcase
  · have ha : animLoop (intrAt T) F (s.poll + 1) = (T - (s.poll + 1), T + 1) :=
      animLoop_halt T F (s.poll + 1) (by omega) (by omega)
    have ht : intrAt T (T + 1) = true := intrAt_true (by omega)
    simp only [runCycles, h0, ha, ht, Bool.false_eq_true, if_false, eq_self_iff_true,
      if_true]
    refine ⟨?_, ?_, ?_, ?_, ?_, ?_⟩ <;> trivial
  · have hTeq : T = s.poll + F + 1 := by omega
    have ha : animLoop (intrAt T) F (s.poll + 1) = (F, s.poll + 1 + F) :=
      animLoop_run T F _ (by omega)
    have ht : intrAt T (s.poll + 1 + F) = true := intrAt_true (by omega)
    simp only [runCycles, h0, ha, ht, Bool.false_eq_true, if_false, eq_self_iff_true,
      if_true]
    refine ⟨?_, ?_, ?_, ?_, ?_, ?_⟩ <;> trivial

/-- Claim C6: if the cancellation flag becomes true during the Sipping
phase of cycle `k = j + 1` (it is still false at the cycle's top-of-loop
check, poll `j * (2F + 3)`, and true by the post-sip check), then cycle
`k` performs no probe and draws no clink frame, commits no log line, the
session ends with exactly `k - 1 = j` committed log lines, and cursor
visibility is restored on exit. -/
theorem c6_cancellation_during_sipping
    (count F : Nat) (p : Nat → PingOutcome) (j T : Nat)
    (hj : j < count) (hT1 : j * (2 * F + 3) < T) (hT2 : T ≤ j * (2 * F + 3) + F + 1) :
    (runSession count F p (intrAt T)).log_count = j ∧
    (runSession count F p (intrAt T)).pings_done = j ∧
    (runSession count F p (intrAt T)).clink_frames_drawn = j * F ∧
    (runSession count F p (intrAt T)).sent = j + 1 ∧
    (runSession count F p (intrAt T)).cursor_hidden = false := by
  obtain ⟨m, hm⟩ : ∃ m, count - j = m + 1 := ⟨count - j - 1, by omega⟩
  have hstart : initSess.poll + j * (2 * F + 3) ≤ T := by
    show 0 + j * (2 * F + 3) ≤ T
    omega
  have hiter := runCycles_clean_iter F p T j count initSess (by omega) hstart
  rw [hm] at hiter
  obtain ⟨hs1, hs2, hs3, hs4, hs5, hs6, hs7, hs8⟩ := cleanIter_fields F p j initSess
  have hjpoll : (cleanIter F p j initSess).poll = j * (2 * F + 3) := by
    rw [hs6]
    show 0 + j * (2 * F + 3) = _
    omega
  have hab := runCycles_aborted F p T m (cleanIter F p j initSess)
    (by rw [hjpoll]; omega) (by rw [hjpoll]; omega)
  obtain ⟨ha1, ha2, ha3, ha4, ha5, ha6⟩ := hab
  refine ⟨?_, ?_, ?_, ?_, rfl⟩
  · show (runCycles F p (intrAt T) count initSess).log_count = j
    rw [hiter, ha1, hs3]
    simp [initSess]
  · show (runCycles F p (intrAt T) count initSess).pings_done = j
    rw [hiter, ha2, hs2]
    simp [initSess]
  · show (runCycles F p (intrAt T) count initSess).clink_frames_drawn = j * F
    rw [hiter, ha3, hs5]
    simp [initSess]
  · show (runCycles F p (intrAt T) count initSess).sent = j + 1
    rw [hiter, ha4, hs1]
    simp [initSess]

theorem c6_witness :
    (1 < 2 ∧ 1 * (2 * 1 + 3) < 6 ∧ 6 ≤ 1 * (2 * 1 + 3) + 1 + 1) ∧
    ((runSession 2 1 (fun _ => PingOutcome.success 5 64) (intrAt 6)).log_count = 1 ∧
     (runSession 2 1 (fun _ => PingOutcome.success 5 64) (intrAt 6)).pings_done = 1 ∧
     (runSession 2 1 (fun _ => PingOutcome.success 5 64) (intrAt 6)).clink_frames_drawn =
       1 * 1 ∧
     (runSession 2 1 (fun _ => PingOutcome.success 5 64) (intrAt 6)).sent = 1 + 1 ∧
     (runSession 2 1 (fun _ => PingOutcome.success 5 64) (intrAt 6)).cursor_hidden = false) :=
  ⟨⟨by decide, by decide, by decide⟩,
   c6_cancellation_during_sipping 2 1 (fun _ => PingOutcome.success 5 64) 1 6
     (by decide) (by decide) (by decide)⟩

/-- Claim C10: under the same cancellation scenario as C6 (flag set during
the Sipping phase of cycle `k = j + 1`), `sent` has already been
incremented for the aborted cycle, so the summary reports `k` sips against
`k - 1` probe-capable cycles, and the aborted cycle is counted in the
denominator and numerator of the loss percentage. -/
theorem c10_aborted_cycle_in_stats
    (count F : Nat) (p : Nat → PingOutcome) (j T : Nat)
    (hj : j < count) (hT1 : j * (2 * F + 3) < T) (hT2 : T ≤ j * (2 * F + 3) + F + 1) :
    (runSession count F p (intrAt T)).sent = j + 1 ∧
    (runSession count F p (intrAt T)).pings_done = j ∧
    (runSession count F p (intrAt T)).received ≤ j ∧
    lossPercent (runSession count F p (intrAt T)) =
      (((j : ℚ) + 1 - ((runSession count F p (intrAt T)).received : ℚ)) /
        ((j : ℚ) + 1)) * 100 := by
  obtain ⟨m, hm⟩ : ∃ m, count - j = m + 1 := ⟨count - j - 1, by omega⟩
  have hstart : initSess.poll + j * (2 * F + 3) ≤ T := by
    show 0 + j * (2 * F + 3) ≤ T
    omega
  have hiter := runCycles_clean_iter F p T j count initSess (by omega) hstart
  rw [hm] at hiter
  obtain ⟨hs1, hs2, hs3, hs4, hs5, hs6, hs7, hs8⟩ := cleanIter_fields F p j initSess
  have hjpoll : (cleanIter F p j initSess).poll = j * (2 * F + 3) := by
    rw [hs6]
    show 0 + j * (2 * F + 3) = _
    omega
  have hab := runCycles_aborted F p T m (cleanIter F p j initSess)
    (by rw [hjpoll]; omega) (by rw [hjpoll]; omega)
  obtain ⟨ha1, ha2, ha3, ha4, ha5, ha6⟩ := hab
  have hsent : (runSession count F p (intrAt T)).sent = j + 1 := by
    show (runCycles F p (intrAt T) count initSess).sent = j + 1
    rw [hiter, ha4, hs1]
    simp [initSess]
  have hrecv : (runSession count F p (intrAt T)).received = succCount p 0 j := by
    show (runCycles F p (intrAt T) count initSess).received = succCount p 0 j
    rw [hiter, ha5, hs7]
    simp [initSess]
  refine ⟨hsent, ?_, ?_, ?_⟩
  · show (runCycles F p (intrAt T) count initSess).pings_done = j
    rw [hiter, ha2, hs2]
    simp [initSess]
  · rw [hrecv]
    exact succCount_le p j 0
  · simp only [lossPercent, hsent]
    rw [if_pos (Nat.succ_pos j)]
    push_cast
    ring

theorem c10_witness :
    (1 < 3 ∧ 1 * (2 * 2 + 3) < 8 ∧ 8 ≤ 1 * (2 * 2 + 3) + 2 + 1) ∧
    ((runSession 3 2 (fun _ => PingOutcome.failure "host down") (intrAt 8)).sent = 1 + 1 ∧
     (runSession 3 2 (fun _ => PingOutcome.failure "host down") (intrAt 8)).pings_done = 1 ∧
     (runSession 3 2 (fun _ => PingOutcome.failure "host down") (intrAt 8)).received ≤ 1 ∧
     lossPercent (runSession 3 2 (fun _ => PingOutcome.failure "host down") (intrAt 8)) =
       (((1 : ℚ) + 1 -
         ((runSession 3 2 (fun _ => PingOutcome.failure "host down") (intrAt 8)).received
           : ℚ)) / ((1 : ℚ) + 1)) * 100) :=
  ⟨⟨by decide, by decide, by decide⟩,
   c10_aborted_cycle_in_stats 3 2 (fun _ => PingOutcome.failure "host down") 1 8
     (by decide) (by decide) (by decide)⟩

/-! ## Startup and fatal asset errors (`main`, cli.py lines 254-266)

The asset environment is external: the GIF file may be missing (the
explicit `gif_path.exists()` check, exit code 1), unreadable (PIL raises,
the exception is uncaught, Python exits with code 1), or decode to zero
frames (then `sip_ansi[0]` at line 265 raises IndexError, uncaught, exit
code 1). In all three cases the process exits non-zero before the
animation loop is reached. -/

inductive AssetEnv where
  | missing
  | unreadable (msg : String)
  | frames (w h : Nat) (fs : List (Img × Nat))

/-- The startup path of `main` (cli.py lines 254-266): locate the asset,
decode its frames, pre-render them, and read `num_rows` from the first
rendered frame. Errors carry the process exit code and a message. -/
def startup (resize : ResizeFn) (width : Nat) (env : AssetEnv) :
    Except (Nat × String) (List (List (List Tok)) × Nat) :=
  match env with
  | .missing => .error (1, "Error: GIF not found")
  | .unreadable msg => .error (1, msg)
  | .frames w h fs =>
    let raw := load_gif_frames w h fs
    let sip := raw.map fun f => frame_to_ansi resize f width
    match sip with
    | [] => .error (1, "IndexError: list index out of range")
    | l :: rest => .ok (l :: rest, l.length)

/-- `main` after argument validation: run startup, and only on success run
the animation session. -/
def mainModel (resize : ResizeFn) (width count : Nat) (p : Nat → PingOutcome)
    (intr : Nat → Bool) (env : AssetEnv) : Except (Nat × String) Sess :=
  match startup resize width env with
  | .error e => .error e
  | .ok (sip, _) => .ok (runSession count sip.length p intr)

/-- Claim C9: if the asset is missing, unreadable, or decodes to zero
frames, the program reports an error, exits with a non-zero code, and the
animation session is never started (the model returns `.error`, and the
session only runs on the `.ok` branch). -/
theorem c9_asset_failures_fatal (resize : ResizeFn) (width count : Nat)
    (p : Nat → PingOutcome) (intr : Nat → Bool) (env : AssetEnv)
    (hbad : env = .missing ∨ (∃ m, env = .unreadable m) ∨
      (∃ w h, env = .frames w h [])) :
    ∃ code msg, mainModel resize width count p intr env = .error (code, msg) ∧
      code ≠ 0 := by
  rcases hbad with hc | ⟨m, hc⟩ | ⟨w, hgt, hc⟩ <;> subst hc
  · exact ⟨1, "Error: GIF not found", rfl, one_ne_zero⟩
  · exact ⟨1, m, rfl, one_ne_zero⟩
  · exact ⟨1, "IndexError: list index out of range", rfl, one_ne_zero⟩

theorem c9_witness :
    ∃ code msg,
      mainModel (fun _ _ _ => fun _ _ => transparentPx) 18 4
        (fun _ => PingOutcome.failure "host down") (intrAt 0) AssetEnv.missing =
        .error (code, msg) ∧ code ≠ 0 :=
  c9_asset_failures_fatal (fun _ _ _ => fun _ _ => transparentPx) 18 4
    (fun _ => PingOutcome.failure "host down") (intrAt 0) AssetEnv.missing (Or.inl rfl)
